import Mathlib

/-!
Verification of the feedback-and-retraining loop of the cyberbullying-detection
service.  Shallow embedding of the relevant parts of the source:

* `backend/api.py` — detection endpoint, in-memory review queue, moderation
  endpoints, history query, retraining trigger / stream / cancel;
* `backend/moderator_db.py` — `save_moderator_action`;
* `backend/models.py` — the `moderator_actions` row shape;
* `backend/prepare_training_data.py` — the Dataset Builder;
* `backend/retrain_model.py` — the training loop (`retrain_main`).

Modelling conventions: timestamps are naturals (`datetime.utcnow()` at
assignment time); probabilities and metrics are rationals; the transcendental
`exp` inside the softmax and the neural network itself are abstracted as
function parameters (their only property used by the code is positivity of
`exp`); the Python dict `pending_queue` is an association list whose insert
overwrites in place and whose pop removes the entry of the popped key.
-/

namespace Cyberbully

/-- A row of the `moderator_actions` table (`backend/models.py`,
`ModeratorAction`).  The store-assigned surrogate integer id is not modelled;
`timestamp` is the UTC assignment time as a natural number. -/
structure MRecord where
  comment_id : String
  text : String
  action : String
  timestamp : Nat
deriving DecidableEq

/-- The value stored under a key of `pending_queue` (`api.py detect`): the dict
`{"text": ..., "confidence": ...}`.  It always has exactly these two keys, so
it is never falsy in the `if not comment` test of `handle_action`. -/
structure QEntry where
  text : String
  confidence : ℚ
deriving DecidableEq

/-- The mutable state touched by the moderation path of `api.py`: the
process-local `pending_queue` dict and the durable `moderator_actions` table
(as the list of rows in insertion order). -/
structure ApiState where
  pending_queue : List (String × QEntry)
  log : List MRecord
deriving DecidableEq

/-- `DetectResponse` of `api.py`: echo of the request plus label and
confidence. -/
structure DetectResponse where
  comment_id : String
  text : String
  label : String
  confidence : ℚ
deriving DecidableEq

/-- A rendered row of the `/history` response. -/
structure HistoryRow where
  comment_id : String
  text : String
  action : String
  timestamp : Nat
deriving DecidableEq

/-- Python dict assignment `pending_queue[k] = v`: overwrite in place if the
key exists (insertion order is preserved), append otherwise. -/
def insertQ : List (String × QEntry) → String → QEntry → List (String × QEntry)
  | [], k, v => [(k, v)]
  | (k₁, v₁) :: rest, k, v =>
      if k₁ = k then (k, v) :: rest else (k₁, v₁) :: insertQ rest k v

/-- Python `pending_queue.pop(k, None)`: the looked-up value (if any) together
with the dict after removal of that key. -/
def popQ : List (String × QEntry) → String → Option QEntry × List (String × QEntry)
  | [], _ => (none, [])
  | (k₁, v₁) :: rest, k =>
      if k₁ = k then (some v₁, rest)
      else
        let r := popQ rest k
        (r.1, (k₁, v₁) :: r.2)

/-- `backend/moderator_db.py save_moderator_action`: builds a row with the
server-assigned timestamp `now` and commits it, i.e. appends it to the
`moderator_actions` table. -/
def save_moderator_action (log : List MRecord) (comment_id text action : String)
    (now : Nat) : List MRecord :=
  log ++ [⟨comment_id, text, action, now⟩]

/-- `api.py handle_action` (POST `/action`): pops `comment_id` from
`pending_queue` (default `None`); 404 if nothing was there; otherwise persists
the decision via `save_moderator_action` and acknowledges.  The result is the
HTTP outcome paired with the state after the call. -/
def handle_action (st : ApiState) (comment_id action : String) (now : Nat) :
    Except Nat String × ApiState :=
  let p := popQ st.pending_queue comment_id
  match p.1 with
  | none => (.error 404, { st with pending_queue := p.2 })
  | some entry =>
      (.ok "Action recorded",
        { pending_queue := p.2,
          log := save_moderator_action st.log comment_id entry.text action now })

/-- `api.py delete_from_queue` (DELETE `/queue/{comment_id}`): membership test
then `del`, modelled by the combined pop; 404 when absent. -/
def delete_from_queue (st : ApiState) (comment_id : String) :
    Except Nat String × ApiState :=
  let p := popQ st.pending_queue comment_id
  match p.1 with
  | some _ =>
      (.ok (comment_id ++ " removed from queue."), { st with pending_queue := p.2 })
  | none => (.error 404, st)

/-- `api.py get_queue` (GET `/queue`): renders every pending entry with the
fixed label `"cyberbully"`; does not mutate the queue. -/
def get_queue (st : ApiState) : List DetectResponse :=
  st.pending_queue.map fun p => ⟨p.1, p.2.text, "cyberbully", p.2.confidence⟩

/-- The SQL `ORDER BY timestamp DESC` ordering on `moderator_actions` rows. -/
def tsDesc (a b : MRecord) : Prop := b.timestamp ≤ a.timestamp

instance : DecidableRel tsDesc := fun a b => Nat.decLe b.timestamp a.timestamp

instance : IsTotal MRecord tsDesc := ⟨fun a b => Nat.le_total b.timestamp a.timestamp⟩

instance : IsTrans MRecord tsDesc := ⟨fun _ _ _ h₁ h₂ => le_trans h₂ h₁⟩

/-- `api.py get_history` (GET `/history`): the whole table, ordered by
timestamp descending, rendered row by row.  The SQL sort is modelled by
insertion sort under `tsDesc`. -/
def get_history (db : List MRecord) : List HistoryRow :=
  (List.insertionSort tsDesc db).map fun r => ⟨r.comment_id, r.text, r.action, r.timestamp⟩

/-- Two-class softmax of `api.py detect` (`torch.softmax(logits, dim=1)[0]`),
with the exponential abstracted as the parameter `e`; the code relies only on
`e` being positive. -/
def softmax2 (e : ℚ → ℚ) (l0 l1 : ℚ) : ℚ × ℚ :=
  (e l0 / (e l0 + e l1), e l1 / (e l0 + e l1))

/-- `api.py detect` (POST `/detect`): classify, and enqueue into
`pending_queue` exactly when the label is `"cyberbully"`.  `mdl` abstracts
tokenizer + model inference (the pair of logits for a given text). -/
def detect (e : ℚ → ℚ) (mdl : String → ℚ × ℚ) (st : ApiState)
    (comment_id text : String) : ApiState × DetectResponse :=
  let l := mdl text
  let probs := softmax2 e l.1 l.2
  let label := if probs.2 > 1/2 then "cyberbully" else "non-cyberbully"
  let confidence := max probs.1 probs.2
  let st1 :=
    if label = "cyberbully" then
      { st with pending_queue := insertQ st.pending_queue comment_id ⟨text, confidence⟩ }
    else st
  (st1, ⟨comment_id, text, label, confidence⟩)

/-- The Dataset Builder's action filter
(`WHERE action IN ('approved', 'rejected')` in
`prepare_training_data.py`). -/
def isDecision (r : MRecord) : Bool :=
  r.action == "approved" || r.action == "rejected"

/-- The row selected by `ORDER BY ... timestamp DESC` + `DISTINCT ON` within
one `comment_id` group: the row of greatest timestamp (the first listed wins a
timestamp tie, which the SQL leaves unspecified). -/
def pickLatest : List MRecord → Option MRecord
  | [] => none
  | r :: rs =>
      match pickLatest rs with
      | none => some r
      | some r2 => if r2.timestamp > r.timestamp then some r2 else some r

/-- The feedback query of `prepare_training_data.py`:
`SELECT DISTINCT ON (comment_id) ... WHERE action IN ('approved','rejected')
ORDER BY comment_id, timestamp DESC` — the latest approved/rejected decision
per `comment_id`.  The SQL returns the groups sorted by `comment_id`; the
model keeps one representative per id without reproducing that ordering
(membership and the per-id choice are what the builder's callers observe). -/
def latestDecisions (log : List MRecord) : List MRecord :=
  let filtered := log.filter isDecision
  ((filtered.map MRecord.comment_id).dedup).filterMap
    fun cid => pickLatest (filtered.filter fun r => r.comment_id == cid)

/-- A training row: `clean_text` and the `Label` column. -/
structure Row where
  clean_text : String
  label : Nat
deriving DecidableEq

/-- `label_map = {"approved": 1, "rejected": 0}` together with the `.dropna()`
that discards rows whose action is outside the map. -/
def label_map (a : String) : Option Nat :=
  if a = "approved" then some 1 else if a = "rejected" then some 0 else none

/-- pandas `drop_duplicates` keyed by `key`: keep the first occurrence of each
key, preserving order. -/
def dedupFirstBy {α β : Type} [DecidableEq β] (key : α → β) (l : List α) : List α :=
  l.foldl (fun acc r => if (acc.map key).contains (key r) then acc else acc ++ [r]) []

/-- `prepare_training_data.py prepare_training_data`: extract the latest
decisions, label them, merge with the base dataset deduplicating by
`clean_text` (first occurrence — i.e. base rows — wins), shuffle with a fixed
seed, and write the output file; `none` when there is no feedback and no file
is written.  The fixed-seed pandas shuffle is abstracted as the `shuffle`
parameter. -/
def prepare_training_data (shuffle : List Row → List Row) (log : List MRecord)
    (df_original : List Row) : Option (List Row) :=
  let df_feedback := latestDecisions log
  if df_feedback.isEmpty then none
  else
    let fbRows := df_feedback.filterMap fun r => (label_map r.action).map fun l => Row.mk r.text l
    let fbRows := dedupFirstBy (fun r => r) fbRows
    let df_combined := dedupFirstBy Row.clean_text (df_original ++ fbRows)
    some (shuffle df_combined)

/-! ### The training loop (`backend/retrain_model.py`) -/

/-- Hyperparameter `EPOCHS = 3`. -/
def EPOCHS : Nat := 3

/-- Hyperparameter `BATCH_SIZE = 8`. -/
def BATCH_SIZE : Nat := 8

/-- The data- and hardware-dependent inputs of `retrain_main`, abstracted:
`nBatches` is `len(train_loader)`, `f1` the validation F1 that `evaluate`
returns after each epoch, `avgLoss` the average training loss of each epoch,
`device` the string reported by `get_device`. -/
structure RetrainCfg where
  nBatches : Nat
  f1 : Nat → ℚ
  avgLoss : Nat → ℚ
  device : String

/-- The structured JSON events printed by `retrain_model.py`.  The confusion
matrix payload and the display rounding (`round(..., 4)` — used only inside
the printed JSON, never in control flow) are not modelled. -/
inductive REvent where
  | summary (epochs batchSize totalSteps : Nat) (device : String)
  | trainingStarted
  | confusionMatrix
  | progress (epoch step : Nat) (prog : Int)
  | epochEnd (epoch : Nat) (avgLoss f1 : ℚ)
  | modelSaved (f1 : ℚ)
  | complete (bestF1 : ℚ)
deriving DecidableEq

/-- The mutable state of the `retrain_main` loop.  `checkpointWrites` records
the epochs at which `torch.save` overwrote `backend/best_model.pt` (the
single checkpoint slot). -/
structure TrainState where
  step : Nat
  lastProg : Int
  bestF1 : ℚ
  checkpointWrites : List Nat
deriving DecidableEq

/-- `prog = int(step/total_steps*100)`: truncation of a nonnegative value,
i.e. floor, i.e. natural division. -/
def progOf (totalSteps step : Nat) : Int :=
  ((step * 100) / totalSteps : Nat)

/-- One iteration of the inner batch loop: bump `step`, and emit a `progress`
event exactly when the integer percentage exceeds `last_prog`. -/
def batchStep (totalSteps epoch : Nat) (s : TrainState) : TrainState × List REvent :=
  let step := s.step + 1
  let prog := progOf totalSteps step
  if prog > s.lastProg then
    ({ s with step := step, lastProg := prog }, [.progress epoch step prog])
  else
    ({ s with step := step }, [])

/-- The inner loop `for batch in train_loader` of one epoch, `k` batches. -/
def runBatches (totalSteps epoch : Nat) : Nat → TrainState → TrainState × List REvent
  | 0, s => (s, [])
  | k + 1, s =>
      let r := batchStep totalSteps epoch s
      let r2 := runBatches totalSteps epoch k r.1
      (r2.1, r.2 ++ r2.2)

/-- One epoch of `retrain_main`: the batch loop, then `evaluate` (which prints
the `confusion_matrix` event), the `epoch_end` event, and — exactly when the
fresh F1 strictly exceeds `best_f1` — the checkpoint overwrite plus the
`model_saved` event. -/
def runEpoch (cfg : RetrainCfg) (totalSteps epoch : Nat) (s : TrainState) :
    TrainState × List REvent :=
  let r := runBatches totalSteps epoch cfg.nBatches s
  let f1v := cfg.f1 epoch
  let evs := r.2 ++ [.confusionMatrix, .epochEnd epoch (cfg.avgLoss epoch) f1v]
  if f1v > r.1.bestF1 then
    ({ r.1 with bestF1 := f1v, checkpointWrites := r.1.checkpointWrites ++ [epoch] },
      evs ++ [.modelSaved f1v])
  else (r.1, evs)

/-- The epoch loop `for epoch in range(1, EPOCHS+1)`. -/
def runEpochs (cfg : RetrainCfg) (totalSteps : Nat) :
    List Nat → TrainState → TrainState × List REvent
  | [], s => (s, [])
  | e :: es, s =>
      let r := runEpoch cfg totalSteps e s
      let r2 := runEpochs cfg totalSteps es r.1
      (r2.1, r.2 ++ r2.2)

/-- `step = 0`, `best_f1 = 0.0`, `last_prog = -1`, pristine checkpoint slot. -/
def initTrain : TrainState := ⟨0, -1, 0, []⟩

/-- `retrain_model.py retrain_main`: summary and start events, the epoch loop
over `range(1, EPOCHS+1)` with `total_steps = EPOCHS * len(train_loader)`, and
the final `complete` event carrying the best F1. -/
def retrain_main (cfg : RetrainCfg) : TrainState × List REvent :=
  let totalSteps := EPOCHS * cfg.nBatches
  let r := runEpochs cfg totalSteps (List.range' 1 EPOCHS) initTrain
  (r.1,
    [.summary EPOCHS BATCH_SIZE totalSteps cfg.device, .trainingStarted]
      ++ r.2 ++ [.complete r.1.bestF1])

/-- The percentages carried by the `progress` events of a stream, in order. -/
def progressValues (evs : List REvent) : List Int :=
  evs.filterMap fun e =>
    match e with
    | .progress _ _ p => some p
    | _ => none

/-- The F1 payloads of the `model_saved` events of a stream, in order. -/
def savedF1s (evs : List REvent) : List ℚ :=
  evs.filterMap fun e =>
    match e with
    | .modelSaved q => some q
    | _ => none

/-- The integer percentage reached after `s` completed batches, with the
sentinel `-1` before the first batch (the initial `last_prog`). -/
def specProg (totalSteps s : Nat) : Int :=
  if s = 0 then -1 else progOf totalSteps s

/-- The best metric recorded before epoch `e` of a job: the running best
starts at `0.0` in the source and is raised by every earlier epoch's F1. -/
def bestBefore (cfg : RetrainCfg) (e : Nat) : ℚ :=
  List.foldl max 0 ((List.range' 1 (e - 1)).map cfg.f1)

/-- The epochs of a full run whose F1 strictly exceeds the best metric
recorded before them. -/
def improvedEpochs (cfg : RetrainCfg) : List Nat :=
  (List.range' 1 EPOCHS).filter fun e => bestBefore cfg e < cfg.f1 e

/-! ### The retraining orchestrator (`api.py`, section 10) -/

/-- A line of the child's stdout as read by `retrain_stream.gen`: either it
parses as a structured event or it is free-form text. -/
inductive SLine where
  | parsed (e : REvent)
  | malformed (s : String)
deriving DecidableEq

/-- An event of the server-sent stream produced by `retrain_stream.gen`:
a forwarded child event, a `raw` wrapper for an unparseable line, or the fixed
`{"type":"complete"}` payload appended after the child exits. -/
inductive SEvent where
  | fromChild (e : REvent)
  | raw (s : String)
  | finalComplete
deriving DecidableEq

/-- The `type` discriminator of a child event. -/
def REvent.ty : REvent → String
  | .summary _ _ _ _ => "summary"
  | .trainingStarted => "training_started"
  | .confusionMatrix => "confusion_matrix"
  | .progress _ _ _ => "progress"
  | .epochEnd _ _ _ => "epoch_end"
  | .modelSaved _ => "model_saved"
  | .complete _ => "complete"

/-- The `type` discriminator of a stream event. -/
def SEvent.ty : SEvent → String
  | .fromChild e => e.ty
  | .raw _ => "raw"
  | .finalComplete => "complete"

/-- Line handling of `retrain_stream.gen`: a parseable line is forwarded
as-is, any other line is wrapped as a `raw` event. -/
def lineToEvent : SLine → SEvent
  | .parsed e => .fromChild e
  | .malformed s => .raw s

/-- `api.py retrain_stream.gen`, as the sequence of stream events produced for
a child whose stdout is `lines` and whose exit status is `exitCode`: every
line is forwarded (or raw-wrapped), then — after `await _current_proc.wait()`
— the fixed `{"type":"complete"}` event is yielded.  The exit status is
available to `gen` at that point but is never inspected. -/
def streamEvents (lines : List SLine) (exitCode : Int) : List SEvent :=
  lines.map lineToEvent ++ [.finalComplete]

/-- An event whose `type` is one of the terminal types named by the spec. -/
def isTerminal (e : SEvent) : Bool :=
  e.ty == "complete" || e.ty == "cancelled" || e.ty == "failed"

/-- The number of terminal-typed events of a stream. -/
def terminalCount (evs : List SEvent) : Nat :=
  (evs.filter isTerminal).length

/-- A child process handle: its pid and, once it has exited, its
`returncode`. -/
structure Proc where
  pid : Nat
  returncode : Option Int
deriving DecidableEq

/-- The orchestrator's process-wide state: every child spawned so far, the
module-global `_current_proc` handle (as a pid), and a fresh-pid counter. -/
structure OrchState where
  procs : List Proc
  currentProc : Option Nat
  nextPid : Nat
deriving DecidableEq

/-- The state at interpreter start: `_current_proc = None`, nothing
spawned. -/
def initOrch : OrchState := ⟨[], none, 0⟩

/-- `api.py retrain_trigger` (POST `/retrain`): logs and acknowledges with
`"Retraining started"`.  It neither checks for a running job nor spawns
one. -/
def retrain_trigger (s : OrchState) : OrchState × String :=
  (s, "Retraining started")

/-- The launch step of `api.py retrain_stream.gen` (GET `/retrain/stream`):
unconditionally spawn a new subprocess and overwrite the module-global
`_current_proc` handle with it. -/
def stream_spawn (s : OrchState) : OrchState :=
  { procs := s.procs ++ [⟨s.nextPid, none⟩],
    currentProc := some s.nextPid,
    nextPid := s.nextPid + 1 }

/-- The number of live (not yet exited) child training processes. -/
def liveCount (s : OrchState) : Nat :=
  (s.procs.filter fun p => p.returncode.isNone).length

/-- The operations of `api.py` that touch the review queue. -/
inductive Op where
  | opDetect (e : ℚ → ℚ) (mdl : String → ℚ × ℚ) (comment_id text : String)
  | opDelete (comment_id : String)
  | opAction (comment_id action : String) (now : Nat)
  | opList

/-- The state transition of each queue-touching endpoint (`get_queue` reads
and does not mutate). -/
def applyOp (st : ApiState) : Op → ApiState
  | .opDetect e mdl cid text => (detect e mdl st cid text).1
  | .opDelete cid => (delete_from_queue st cid).2
  | .opAction cid act now => (handle_action st cid act now).2
  | .opList => st

/-- The queue invariant of C9: every pending record's stored confidence is
strictly above `1/2`. -/
def queueInv (st : ApiState) : Prop :=
  ∀ p ∈ st.pending_queue, 1/2 < p.2.confidence

/-- A concrete normal run for C2: one batch per epoch, all validation F1
scores zero. -/
def cfgUnit : RetrainCfg := ⟨1, fun _ => 0, fun _ => 0, "cpu"⟩

/-- The stdout of that run as read back by the orchestrator: every line the
child printed parses as a structured event. -/
def normalRunLines : List SLine := ((retrain_main cfgUnit).2).map SLine.parsed

/-! ### Helper lemmas -/

/-- Spawning one more child raises the live-process count by one (the fresh
handle has no returncode yet). -/
theorem liveCount_stream_spawn (s : OrchState) :
    liveCount (stream_spawn s) = liveCount s + 1 := by
  unfold liveCount stream_spawn
  simp [List.filter_append, Option.isNone]

/-- A pop that found nothing leaves the dict unchanged. -/
theorem popQ_none_snd : ∀ (q : List (String × QEntry)) (k : String),
    (popQ q k).1 = none → (popQ q k).2 = q := by
  intro q
  induction q with
  | nil => intro k _; rfl
  | cons hd rest ih =>
      intro k h
      by_cases hk : hd.1 = k
      · simp [popQ, hk] at h
      · simp only [popQ, if_neg hk] at h ⊢
        exact congrArg (hd :: ·) (ih k h)

/-- A successful pop returns an entry that was in the dict under the popped
key. -/
theorem popQ_some_mem : ∀ (q : List (String × QEntry)) (k : String) (v : QEntry),
    (popQ q k).1 = some v → (k, v) ∈ q := by
  intro q
  induction q with
  | nil => intro k v h; simp [popQ] at h
  | cons hd rest ih =>
      intro k v h
      by_cases hk : hd.1 = k
      · simp only [popQ, if_pos hk] at h
        have h2 := Option.some.inj h
        rw [← hk, ← h2]
        exact List.mem_cons_self hd rest
      · simp only [popQ, if_neg hk] at h
        exact List.mem_cons_of_mem hd (ih k v h)

/-- Everything left after a pop was in the dict before. -/
theorem popQ_snd_mem : ∀ (q : List (String × QEntry)) (k : String)
    (p : String × QEntry), p ∈ (popQ q k).2 → p ∈ q := by
  intro q
  induction q with
  | nil => intro k p h; simp [popQ] at h
  | cons hd rest ih =>
      intro k p h
      by_cases hk : hd.1 = k
      · simp only [popQ, if_pos hk] at h
        exact List.mem_cons_of_mem hd h
      · simp only [popQ, if_neg hk] at h
        rcases List.mem_cons.mp h with h | h
        · exact h ▸ List.mem_cons_self hd rest
        · exact List.mem_cons_of_mem hd (ih k p h)

/-- A successful pop removes exactly one entry. -/
theorem popQ_some_length : ∀ (q : List (String × QEntry)) (k : String)
    (v : QEntry), (popQ q k).1 = some v →
    (popQ q k).2.length + 1 = q.length := by
  intro q
  induction q with
  | nil => intro k v h; simp [popQ] at h
  | cons hd rest ih =>
      intro k v h
      by_cases hk : hd.1 = k
      · simp [popQ, if_pos hk]
      · simp only [popQ, if_neg hk] at h ⊢
        simp only [List.length_cons]
        rw [ih k v h]

/-- Under the dict invariant (no duplicate keys), popping `k` yields exactly
the entries of the other keys, in order. -/
theorem popQ_nodup_filter : ∀ (q : List (String × QEntry)) (k : String),
    (q.map Prod.fst).Nodup →
    (popQ q k).2 = q.filter (fun p => p.1 != k) := by
  intro q
  induction q with
  | nil => intro k _; rfl
  | cons hd rest ih =>
      intro k hnd
      rw [List.map_cons, List.nodup_cons] at hnd
      by_cases hk : hd.1 = k
      · simp only [popQ, if_pos hk]
        rw [List.filter_cons_of_neg (by simp [hk]), Eq.comm]
        apply List.filter_eq_self.mpr
        intro p hp
        have : p.1 ≠ k := by
          intro he
          exact hnd.1 (by rw [hk, ← he]; exact List.mem_map_of_mem Prod.fst hp)
        simpa using this
      · simp only [popQ, if_neg hk]
        rw [List.filter_cons_of_pos (by simpa using hk)]
        exact congrArg (hd :: ·) (ih k hnd.2)

/-- Membership after a dict insert: the new binding or an old one. -/
theorem insertQ_mem : ∀ (q : List (String × QEntry)) (k : String) (v : QEntry)
    (p : String × QEntry), p ∈ insertQ q k v → p = (k, v) ∨ p ∈ q := by
  intro q
  induction q with
  | nil => intro k v p h; simpa [insertQ] using h
  | cons hd rest ih =>
      intro k v p h
      by_cases hk : hd.1 = k
      · simp only [insertQ, if_pos hk] at h
        rcases List.mem_cons.mp h with h | h
        · exact Or.inl h
        · exact Or.inr (List.mem_cons_of_mem hd h)
      · simp only [insertQ, if_neg hk] at h
        rcases List.mem_cons.mp h with h | h
        · exact Or.inr (h ▸ List.mem_cons_self hd rest)
        · rcases ih k v p h with h | h
          · exact Or.inl h
          · exact Or.inr (List.mem_cons_of_mem hd h)

/-- The integer percentage is monotone in the completed-step count. -/
theorem progOf_mono (T : Nat) {a b : Nat} (h : a ≤ b) :
    progOf T a ≤ progOf T b := by
  unfold progOf
  exact Int.ofNat_le.mpr (Nat.div_le_div_right (Nat.mul_le_mul h (le_refl 100)))

/-- The percentage-with-sentinel is monotone as well. -/
theorem specProg_mono (T : Nat) {a b : Nat} (h : a ≤ b) :
    specProg T a ≤ specProg T b := by
  unfold specProg
  by_cases ha : a = 0
  · rw [if_pos ha]
    by_cases hb : b = 0
    · rw [if_pos hb]
    · rw [if_neg hb]
      exact le_trans (by norm_num) (Int.natCast_nonneg ((b * 100) / T))
  · have hb : b ≠ 0 := by omega
    rw [if_neg ha, if_neg hb]
    exact progOf_mono T h

/-- Percentage extraction across a list of pure progress events. -/
theorem progressValues_map_progress (epoch : Nat) (f : Nat → Int)
    (l : List Nat) :
    progressValues (l.map fun t => REvent.progress epoch t (f t)) = l.map f := by
  induction l with
  | nil => rfl
  | cons hd rest ih =>
      simp only [List.map_cons, progressValues, List.filterMap_cons] at ih ⊢
      rw [ih]

/-- Progress events carry no `model_saved` payloads. -/
theorem savedF1s_map_progress (epoch : Nat) (f : Nat → Int) (l : List Nat) :
    savedF1s (l.map fun t => REvent.progress epoch t (f t)) = [] := by
  induction l with
  | nil => rfl
  | cons hd rest ih =>
      simp only [List.map_cons, savedF1s, List.filterMap_cons] at ih ⊢
      rw [ih]

/-- Full characterisation of the inner batch loop: starting in a state whose
`last_prog` is the percentage of its step count, running `k` batches advances
the step count, keeps `last_prog` equal to the percentage of the new step
count, leaves metric and checkpoint state alone, and emits exactly one
`progress` event for each step at which the integer percentage increases. -/
theorem runBatches_spec (T epoch : Nat) :
    ∀ (k : Nat) (s : TrainState), s.lastProg = specProg T s.step →
    (runBatches T epoch k s).1.step = s.step + k
    ∧ (runBatches T epoch k s).1.lastProg = specProg T (s.step + k)
    ∧ (runBatches T epoch k s).1.bestF1 = s.bestF1
    ∧ (runBatches T epoch k s).1.checkpointWrites = s.checkpointWrites
    ∧ (runBatches T epoch k s).2
        = ((List.range' (s.step + 1) k).filter
            (fun t => specProg T (t - 1) < specProg T t)).map
            (fun t => REvent.progress epoch t (progOf T t)) := by
  intro k
  induction k with
  | zero =>
      intro s hs
      refine ⟨rfl, ?_, rfl, rfl, rfl⟩
      rw [Nat.add_zero]
      exact hs
  | succ k ih =>
      intro s hs
      have hstep1 : specProg T (s.step + 1) = progOf T (s.step + 1) := by
        unfold specProg
        rw [if_neg (Nat.succ_ne_zero s.step)]
      have hrun : runBatches T epoch (k + 1) s
          = ((runBatches T epoch k (batchStep T epoch s).1).1,
              (batchStep T epoch s).2
                ++ (runBatches T epoch k (batchStep T epoch s).1).2) := rfl
      have hcancel : s.step + 1 - 1 = s.step := by omega
      by_cases hc : progOf T (s.step + 1) > s.lastProg
      · have hbs : batchStep T epoch s
            = ({ s with step := s.step + 1, lastProg := progOf T (s.step + 1) },
                [REvent.progress epoch (s.step + 1) (progOf T (s.step + 1))]) := by
          simp only [batchStep, if_pos hc]
        have hstepScan : (batchStep T epoch s).1.step = s.step + 1 := by rw [hbs]
        have hlpScan : (batchStep T epoch s).1.lastProg
            = progOf T (s.step + 1) := by rw [hbs]
        have hbfScan : (batchStep T epoch s).1.bestF1 = s.bestF1 := by rw [hbs]
        have hcwScan : (batchStep T epoch s).1.checkpointWrites
            = s.checkpointWrites := by rw [hbs]
        have hevScan : (batchStep T epoch s).2
            = [REvent.progress epoch (s.step + 1) (progOf T (s.step + 1))] := by
          rw [hbs]
        have hinv : (batchStep T epoch s).1.lastProg
            = specProg T (batchStep T epoch s).1.step := by
          rw [hstepScan, hlpScan]
          exact hstep1.symm
        have ihh := ih (batchStep T epoch s).1 hinv
        rw [hrun]
        refine ⟨?_, ?_, ?_, ?_, ?_⟩
        · rw [ihh.1, hstepScan]
          omega
        · rw [ihh.2.1, hstepScan]
          exact congrArg (specProg T) (by omega)
        · rw [ihh.2.2.1, hbfScan]
        · rw [ihh.2.2.2.1, hcwScan]
        · have hpa : specProg T (s.step + 1 - 1) < specProg T (s.step + 1) := by
            rw [hcancel, hstep1, ← hs]
            exact hc
          rw [hevScan, ihh.2.2.2.2, hstepScan]
          conv_rhs => rw [List.range'_succ]
          rw [@List.filter_cons_of_pos _
            (fun t => decide (specProg T (t - 1) < specProg T t)) (s.step + 1)
            (List.range' (s.step + 1 + 1) k) (decide_eq_true hpa),
            List.map_cons]
          rfl
      · have hle : progOf T (s.step + 1) ≤ specProg T s.step := by
          rw [← hs]
          exact le_of_not_lt hc
        have heq : specProg T s.step = specProg T (s.step + 1) :=
          le_antisymm (specProg_mono T (Nat.le_succ s.step)) (hstep1 ▸ hle)
        have hbs : batchStep T epoch s
            = ({ s with step := s.step + 1 }, []) := by
          simp only [batchStep, if_neg hc]
        have hstepScan : (batchStep T epoch s).1.step = s.step + 1 := by rw [hbs]
        have hlpScan : (batchStep T epoch s).1.lastProg = s.lastProg := by
          rw [hbs]
        have hbfScan : (batchStep T epoch s).1.bestF1 = s.bestF1 := by rw [hbs]
        have hcwScan : (batchStep T epoch s).1.checkpointWrites
            = s.checkpointWrites := by rw [hbs]
        have hevScan : (batchStep T epoch s).2 = [] := by rw [hbs]
        have hinv : (batchStep T epoch s).1.lastProg
            = specProg T (batchStep T epoch s).1.step := by
          rw [hstepScan, hlpScan, hs]
          exact heq
        have ihh := ih (batchStep T epoch s).1 hinv
        rw [hrun]
        refine ⟨?_, ?_, ?_, ?_, ?_⟩
        · rw [ihh.1, hstepScan]
          omega
        · rw [ihh.2.1, hstepScan]
          exact congrArg (specProg T) (by omega)
        · rw [ihh.2.2.1, hbfScan]
        · rw [ihh.2.2.2.1, hcwScan]
        · have hpa : ¬ specProg T (s.step + 1 - 1) < specProg T (s.step + 1) := by
            rw [hcancel, ← heq]
            exact lt_irrefl _
          rw [hevScan, ihh.2.2.2.2, hstepScan]
          conv_rhs => rw [List.range'_succ]
          rw [@List.filter_cons_of_neg _
            (fun t => decide (specProg T (t - 1) < specProg T t)) (s.step + 1)
            (List.range' (s.step + 1 + 1) k)
            (fun hcontra => hpa (of_decide_eq_true hcontra))]
          rfl

/-- Percentage extraction distributes over stream concatenation. -/
theorem progressValues_append (a b : List REvent) :
    progressValues (a ++ b) = progressValues a ++ progressValues b :=
  List.filterMap_append a b _

/-- Saved-metric extraction distributes over stream concatenation. -/
theorem savedF1s_append (a b : List REvent) :
    savedF1s (a ++ b) = savedF1s a ++ savedF1s b :=
  List.filterMap_append a b _

/-- Full characterisation of one epoch: the batch loop advances the counters,
the metric state becomes the maximum of the old best and the fresh F1, the
checkpoint is overwritten (once) and the `model_saved` event is emitted (once)
exactly when the fresh F1 strictly exceeds the old best, and the epoch's
progress percentages are those of its steps at which the integer percentage
increases. -/
theorem runEpoch_spec (cfg : RetrainCfg) (T epoch : Nat) (s : TrainState)
    (hs : s.lastProg = specProg T s.step) :
    (runEpoch cfg T epoch s).1.step = s.step + cfg.nBatches
    ∧ (runEpoch cfg T epoch s).1.lastProg = specProg T (s.step + cfg.nBatches)
    ∧ (runEpoch cfg T epoch s).1.bestF1 = max s.bestF1 (cfg.f1 epoch)
    ∧ (runEpoch cfg T epoch s).1.checkpointWrites
        = s.checkpointWrites
            ++ (if s.bestF1 < cfg.f1 epoch then [epoch] else [])
    ∧ progressValues (runEpoch cfg T epoch s).2
        = ((List.range' (s.step + 1) cfg.nBatches).filter
            (fun t => specProg T (t - 1) < specProg T t)).map (progOf T)
    ∧ savedF1s (runEpoch cfg T epoch s).2
        = (if s.bestF1 < cfg.f1 epoch then [cfg.f1 epoch] else []) := by
  have hrb := runBatches_spec T epoch cfg.nBatches s hs
  have hcond : (cfg.f1 epoch > (runBatches T epoch cfg.nBatches s).1.bestF1)
      ↔ (s.bestF1 < cfg.f1 epoch) := by
    rw [hrb.2.2.1]
  by_cases hf : s.bestF1 < cfg.f1 epoch
  · simp only [runEpoch]
    rw [if_pos (show cfg.f1 epoch > (runBatches T epoch cfg.nBatches s).1.bestF1
      from hcond.mpr hf)]
    refine ⟨hrb.1, hrb.2.1, (max_eq_right (le_of_lt hf)).symm, ?_, ?_, ?_⟩
    · show (runBatches T epoch cfg.nBatches s).1.checkpointWrites ++ [epoch]
          = s.checkpointWrites
              ++ (if s.bestF1 < cfg.f1 epoch then [epoch] else [])
      rw [hrb.2.2.2.1, if_pos hf]
    · show progressValues (((runBatches T epoch cfg.nBatches s).2
          ++ [REvent.confusionMatrix,
              REvent.epochEnd epoch (cfg.avgLoss epoch) (cfg.f1 epoch)])
          ++ [REvent.modelSaved (cfg.f1 epoch)]) = _
      rw [progressValues_append, progressValues_append, hrb.2.2.2.2,
        progressValues_map_progress,
        show progressValues [REvent.confusionMatrix,
          REvent.epochEnd epoch (cfg.avgLoss epoch) (cfg.f1 epoch)] = []
          from rfl,
        show progressValues [REvent.modelSaved (cfg.f1 epoch)] = [] from rfl,
        List.append_nil, List.append_nil]
    · show savedF1s (((runBatches T epoch cfg.nBatches s).2
          ++ [REvent.confusionMatrix,
              REvent.epochEnd epoch (cfg.avgLoss epoch) (cfg.f1 epoch)])
          ++ [REvent.modelSaved (cfg.f1 epoch)]) = _
      rw [savedF1s_append, savedF1s_append, hrb.2.2.2.2, savedF1s_map_progress,
        if_pos hf]
      rfl
  · simp only [runEpoch]
    rw [if_neg (fun hcontra => hf (hcond.mp hcontra))]
    refine ⟨hrb.1, hrb.2.1, ?_, ?_, ?_, ?_⟩
    · rw [hrb.2.2.1]
      exact (max_eq_left (le_of_not_lt hf)).symm
    · rw [hrb.2.2.2.1, if_neg hf, List.append_nil]
    · show progressValues ((runBatches T epoch cfg.nBatches s).2
          ++ [REvent.confusionMatrix,
              REvent.epochEnd epoch (cfg.avgLoss epoch) (cfg.f1 epoch)]) = _
      rw [progressValues_append, hrb.2.2.2.2, progressValues_map_progress,
        show progressValues [REvent.confusionMatrix,
          REvent.epochEnd epoch (cfg.avgLoss epoch) (cfg.f1 epoch)] = []
          from rfl,
        List.append_nil]
    · show savedF1s ((runBatches T epoch cfg.nBatches s).2
          ++ [REvent.confusionMatrix,
              REvent.epochEnd epoch (cfg.avgLoss epoch) (cfg.f1 epoch)]) = _
      rw [savedF1s_append, hrb.2.2.2.2, savedF1s_map_progress, if_neg hf]
      rfl

/-- Filtering a singleton. -/
theorem filter_one {α : Type} (p : α → Bool) (a : α) :
    List.filter p [a] = if p a then [a] else [] := by
  cases hpa : p a <;> simp [hpa]

/-- The epoch loop splits over concatenation of epoch lists. -/
theorem runEpochs_append (cfg : RetrainCfg) (T : Nat) (l1 l2 : List Nat)
    (s : TrainState) :
    runEpochs cfg T (l1 ++ l2) s
      = ((runEpochs cfg T l2 (runEpochs cfg T l1 s).1).1,
          (runEpochs cfg T l1 s).2
            ++ (runEpochs cfg T l2 (runEpochs cfg T l1 s).1).2) := by
  induction l1 generalizing s with
  | nil => simp [runEpochs]
  | cons e rest ih =>
      show ((runEpochs cfg T (rest ++ l2) (runEpoch cfg T e s).1).1,
            (runEpoch cfg T e s).2
              ++ (runEpochs cfg T (rest ++ l2) (runEpoch cfg T e s).1).2)
          = _
      rw [ih]
      show _
          = ((runEpochs cfg T l2
                ((runEpochs cfg T rest (runEpoch cfg T e s).1).1)).1,
              ((runEpoch cfg T e s).2
                  ++ (runEpochs cfg T rest (runEpoch cfg T e s).1).2)
                ++ (runEpochs cfg T l2
                    ((runEpochs cfg T rest (runEpoch cfg T e s).1).1)).2)
      rw [List.append_assoc]

/-- Full characterisation of `k` epochs of the training loop started from the
initial state: step and percentage counters advance epoch by epoch, the
running best is the maximum of zero and all F1 values seen, the checkpoint is
overwritten exactly at the epochs whose F1 strictly exceeds the best recorded
before them, `model_saved` carries exactly those F1 values, and the progress
percentages are those of the strict-increase steps. -/
theorem retrainLoop_spec (cfg : RetrainCfg) :
    ∀ k : Nat,
    (runEpochs cfg (EPOCHS * cfg.nBatches) (List.range' 1 k) initTrain).1.step
        = k * cfg.nBatches
    ∧ (runEpochs cfg (EPOCHS * cfg.nBatches) (List.range' 1 k)
          initTrain).1.lastProg
        = specProg (EPOCHS * cfg.nBatches) (k * cfg.nBatches)
    ∧ (runEpochs cfg (EPOCHS * cfg.nBatches) (List.range' 1 k)
          initTrain).1.bestF1
        = List.foldl max 0 ((List.range' 1 k).map cfg.f1)
    ∧ (runEpochs cfg (EPOCHS * cfg.nBatches) (List.range' 1 k)
          initTrain).1.checkpointWrites
        = (List.range' 1 k).filter (fun e => bestBefore cfg e < cfg.f1 e)
    ∧ progressValues (runEpochs cfg (EPOCHS * cfg.nBatches) (List.range' 1 k)
          initTrain).2
        = ((List.range' 1 (k * cfg.nBatches)).filter
            (fun t => specProg (EPOCHS * cfg.nBatches) (t - 1)
                < specProg (EPOCHS * cfg.nBatches) t)).map
            (progOf (EPOCHS * cfg.nBatches))
    ∧ savedF1s (runEpochs cfg (EPOCHS * cfg.nBatches) (List.range' 1 k)
          initTrain).2
        = ((List.range' 1 k).filter
            (fun e => bestBefore cfg e < cfg.f1 e)).map cfg.f1 := by
  intro k
  induction k with
  | zero =>
      simp only [Nat.zero_mul]
      exact ⟨rfl, rfl, rfl, rfl, rfl, rfl⟩
  | succ k ih =>
      have hconcat : List.range' 1 (k + 1) = List.range' 1 k ++ [1 + k] :=
        List.range'_1_concat 1 k
      have hsingle : ∀ s : TrainState,
          runEpochs cfg (EPOCHS * cfg.nBatches) [1 + k] s
            = ((runEpoch cfg (EPOCHS * cfg.nBatches) (1 + k) s).1,
                (runEpoch cfg (EPOCHS * cfg.nBatches) (1 + k) s).2) := by
        intro s
        simp [runEpochs]
      have hinv : (runEpochs cfg (EPOCHS * cfg.nBatches) (List.range' 1 k)
            initTrain).1.lastProg
          = specProg (EPOCHS * cfg.nBatches)
              (runEpochs cfg (EPOCHS * cfg.nBatches) (List.range' 1 k)
                initTrain).1.step := by
        rw [ih.2.1, ih.1]
      have hep := runEpoch_spec cfg (EPOCHS * cfg.nBatches) (1 + k) _ hinv
      have hBB : bestBefore cfg (1 + k)
          = List.foldl max 0 ((List.range' 1 k).map cfg.f1) := by
        unfold bestBefore
        rw [show 1 + k - 1 = k from by omega]
      rw [hconcat, runEpochs_append, hsingle]
      refine ⟨?_, ?_, ?_, ?_, ?_, ?_⟩
      · rw [hep.1, ih.1]
        ring
      · rw [hep.2.1, ih.1]
        exact congrArg (specProg (EPOCHS * cfg.nBatches)) (by ring)
      · rw [hep.2.2.1, ih.2.2.1]
        conv_rhs => rw [List.map_append, List.foldl_append]
        rfl
      · rw [hep.2.2.2.1, ih.2.2.2.1, ih.2.2.1]
        conv_rhs => rw [List.filter_append, filter_one]
        by_cases hcase :
            List.foldl max 0 ((List.range' 1 k).map cfg.f1) < cfg.f1 (1 + k)
        · rw [if_pos hcase,
            if_pos (show ((fun e => decide (bestBefore cfg e < cfg.f1 e))
                (1 + k)) = true
              from decide_eq_true (hBB.symm ▸ hcase))]
        · rw [if_neg hcase,
            if_neg (show ¬ ((fun e => decide (bestBefore cfg e < cfg.f1 e))
                (1 + k)) = true
              from fun hcontra => hcase (hBB ▸ of_decide_eq_true hcontra)),
            List.append_nil]
      · dsimp only
        rw [progressValues_append, hep.2.2.2.2.1, ih.2.2.2.2.1, ih.1]
        conv_rhs =>
          rw [show (k + 1) * cfg.nBatches = cfg.nBatches + k * cfg.nBatches
                from by ring,
              ← List.range'_append_1 1 (k * cfg.nBatches) cfg.nBatches,
              List.filter_append, List.map_append]
        rw [Nat.add_comm (k * cfg.nBatches) 1]
      · dsimp only
        rw [savedF1s_append, hep.2.2.2.2.2, ih.2.2.2.2.2, ih.2.2.1]
        conv_rhs => rw [List.filter_append, List.map_append, filter_one]
        by_cases hcase :
            List.foldl max 0 ((List.range' 1 k).map cfg.f1) < cfg.f1 (1 + k)
        · rw [if_pos hcase,
            if_pos (show ((fun e => decide (bestBefore cfg e < cfg.f1 e))
                (1 + k)) = true
              from decide_eq_true (hBB.symm ▸ hcase))]
          rfl
        · rw [if_neg hcase,
            if_neg (show ¬ ((fun e => decide (bestBefore cfg e < cfg.f1 e))
                (1 + k)) = true
              from fun hcontra => hcase (hBB ▸ of_decide_eq_true hcontra))]
          simp

/-- `pickLatest` never returns `none` on a nonempty list. -/
theorem pickLatest_none : ∀ (l : List MRecord), pickLatest l = none → l = [] := by
  intro l
  cases l with
  | nil => intro _; rfl
  | cons hd rest =>
      intro h
      simp only [pickLatest] at h
      split at h
      · simp at h
      · split at h <;> simp at h

/-- The record picked as latest is one of the candidates. -/
theorem pickLatest_mem : ∀ (l : List MRecord) (r : MRecord),
    pickLatest l = some r → r ∈ l := by
  intro l
  induction l with
  | nil => intro r h; cases h
  | cons hd rest ih =>
      intro r h
      simp only [pickLatest] at h
      split at h
      · exact (Option.some.inj h) ▸ List.mem_cons_self hd rest
      · next rbest heq =>
          split at h
          · exact List.mem_cons_of_mem hd (ih r ((Option.some.inj h) ▸ heq))
          · exact (Option.some.inj h) ▸ List.mem_cons_self hd rest

/-- The record picked as latest carries the greatest timestamp among the
candidates. -/
theorem pickLatest_max : ∀ (l : List MRecord) (r : MRecord),
    pickLatest l = some r → ∀ r2 ∈ l, r2.timestamp ≤ r.timestamp := by
  intro l
  induction l with
  | nil => intro r _ r2 h2; cases h2
  | cons hd rest ih =>
      intro r h r2 h2
      simp only [pickLatest] at h
      split at h
      · next heq =>
          have hrest := pickLatest_none rest heq
          rcases List.mem_cons.mp h2 with h2 | h2
          · rw [h2, Option.some.inj h]
          · rw [hrest] at h2
            exact absurd h2 (List.not_mem_nil r2)
      · next rbest heq =>
          split at h
          · next hgt =>
              have hr : rbest = r := Option.some.inj h
              rcases List.mem_cons.mp h2 with h2 | h2
              · rw [h2, ← hr]
                exact le_of_lt hgt
              · exact hr ▸ ih rbest heq r2 h2
          · next hgt =>
              have hr : hd = r := Option.some.inj h
              rcases List.mem_cons.mp h2 with h2 | h2
              · rw [h2, hr]
              · exact le_trans (ih rbest heq r2 h2) (hr ▸ le_of_not_lt hgt)

/-- A record picked for the id group `cid` carries that `comment_id`. -/
theorem pickLatest_group_id (filtered : List MRecord) (cid : String)
    (r : MRecord)
    (h : pickLatest (filtered.filter fun x => x.comment_id == cid) = some r) :
    r.comment_id = cid := by
  have hmem := pickLatest_mem _ _ h
  have := List.of_mem_filter hmem
  simpa using this

/-- Every row of the feedback query is an approved/rejected row of the log
and carries the greatest timestamp among the log's approved/rejected rows of
its `comment_id`. -/
theorem mem_latestDecisions (log : List MRecord) (r : MRecord)
    (h : r ∈ latestDecisions log) :
    r ∈ log.filter isDecision
    ∧ ∀ r2 ∈ log.filter isDecision,
        r2.comment_id = r.comment_id → r2.timestamp ≤ r.timestamp := by
  simp only [latestDecisions, List.mem_filterMap] at h
  obtain ⟨cid, hcid, hpk⟩ := h
  have hrmem : r ∈ (log.filter isDecision).filter
      (fun x => x.comment_id == cid) := pickLatest_mem _ _ hpk
  have h1 : r ∈ log.filter isDecision := List.mem_of_mem_filter hrmem
  have hrcid : r.comment_id = cid := pickLatest_group_id _ _ _ hpk
  refine ⟨h1, ?_⟩
  intro r2 h2 hid
  have h2f : r2 ∈ (log.filter isDecision).filter
      (fun x => x.comment_id == cid) :=
    List.mem_filter.mpr ⟨h2, by simp [hid, hrcid]⟩
  exact pickLatest_max _ _ hpk r2 h2f

/-- The feedback query keeps at most one row per `comment_id`. -/
theorem filterMap_pick_ids_nodup (filtered : List MRecord) :
    ∀ (ids : List String), ids.Nodup →
    ((ids.filterMap fun cid =>
        pickLatest (filtered.filter fun x => x.comment_id == cid)).map
      MRecord.comment_id).Nodup := by
  intro ids
  induction ids with
  | nil => intro _; simp
  | cons cid rest ih =>
      intro hids
      rw [List.filterMap_cons]
      rcases hpk : pickLatest (filtered.filter fun x => x.comment_id == cid)
        with _ | r
      · exact ih (List.nodup_cons.mp hids).2
      · rw [List.map_cons, List.nodup_cons]
        refine ⟨?_, ih (List.nodup_cons.mp hids).2⟩
        intro hmem
        rw [List.mem_map] at hmem
        obtain ⟨r2, hr2, hid2⟩ := hmem
        rw [List.mem_filterMap] at hr2
        obtain ⟨cid2, hcid2, hpk2⟩ := hr2
        have e1 : r.comment_id = cid := pickLatest_group_id _ _ _ hpk
        have e2 : r2.comment_id = cid2 := pickLatest_group_id _ _ _ hpk2
        apply (List.nodup_cons.mp hids).1
        rw [← e1, ← hid2, e2]
        exact hcid2

/-- The ids of the feedback query's output are pairwise distinct. -/
theorem latestDecisions_ids_nodup (log : List MRecord) :
    ((latestDecisions log).map MRecord.comment_id).Nodup := by
  unfold latestDecisions
  exact filterMap_pick_ids_nodup _ _ (List.nodup_dedup _)

/-- The response label of `detect`, by unfolding of the definition. -/
theorem detect_label_eq (e : ℚ → ℚ) (mdl : String → ℚ × ℚ) (st : ApiState)
    (cid text : String) :
    (detect e mdl st cid text).2.label
      = if 1/2 < (softmax2 e (mdl text).1 (mdl text).2).2 then "cyberbully"
        else "non-cyberbully" := rfl

/-- The state transition of `detect`: the queue insert happens exactly under
the positive-class threshold (the source guards the insert by
`label == "cyberbully"`, and the label encodes the threshold). -/
theorem detect_fst_eq (e : ℚ → ℚ) (mdl : String → ℚ × ℚ) (st : ApiState)
    (cid text : String) :
    (detect e mdl st cid text).1
      = if 1/2 < (softmax2 e (mdl text).1 (mdl text).2).2 then
          { st with pending_queue :=
              (insertQ st.pending_queue cid
                ⟨text, max (softmax2 e (mdl text).1 (mdl text).2).1
                  (softmax2 e (mdl text).1 (mdl text).2).2⟩) }
        else st := by
  by_cases hthr : 1/2 < (softmax2 e (mdl text).1 (mdl text).2).2
  · rw [if_pos hthr]
    unfold detect
    simp only [if_pos hthr]
    simp
  · rw [if_neg hthr]
    unfold detect
    simp only [if_neg hthr]
    simp

/-- Every single queue-touching endpoint preserves the queue invariant. -/
theorem applyOp_queueInv (st : ApiState) (op : Op) (h : queueInv st) :
    queueInv (applyOp st op) := by
  cases op with
  | opDetect e mdl cid text =>
      show queueInv (detect e mdl st cid text).1
      rw [detect_fst_eq]
      by_cases hthr : 1/2 < (softmax2 e (mdl text).1 (mdl text).2).2
      · rw [if_pos hthr]
        intro p hp
        rcases insertQ_mem _ _ _ _ hp with hp | hp
        · rw [hp]
          exact lt_of_lt_of_le hthr (le_max_right _ _)
        · exact h p hp
      · rw [if_neg hthr]
        exact h
  | opDelete cid =>
      show queueInv (delete_from_queue st cid).2
      unfold delete_from_queue
      rcases hpop : (popQ st.pending_queue cid).1 with _ | v
      · simpa [hpop] using h
      · simp only [hpop]
        intro p hp
        exact h p (popQ_snd_mem _ _ _ hp)
  | opAction cid act now =>
      show queueInv (handle_action st cid act now).2
      unfold handle_action
      rcases hpop : (popQ st.pending_queue cid).1 with _ | v
      · simp only [hpop]
        intro p hp
        exact h p (popQ_snd_mem _ _ _ hp)
      · simp only [hpop]
        intro p hp
        exact h p (popQ_snd_mem _ _ _ hp)
  | opList => exact h

/-! ### Claims -/

/-- C7: history queries return the full sequence of ModerationDecision
records sorted by timestamp in descending order, for every insertion order of
the underlying decisions: the rendered rows are pairwise descending in
timestamp, and they are a permutation of a rendering of the whole table. -/
theorem get_history_sorted_desc (db : List MRecord) :
    ((get_history db).map HistoryRow.timestamp).Pairwise (fun a b => b ≤ a)
    ∧ (get_history db).Perm
        (db.map fun r => ⟨r.comment_id, r.text, r.action, r.timestamp⟩) := by
  constructor
  · have h : (List.insertionSort tsDesc db).Pairwise tsDesc :=
      List.sorted_insertionSort tsDesc db
    unfold get_history
    rw [List.map_map, List.pairwise_map]
    exact h
  · exact (List.perm_insertionSort tsDesc db).map _

/-- C8: for every text input (every abstract model `mdl` and positive
exponential `e`), `detect` returns a confidence in `[0, 1]` that equals the
maximum class probability of the two-class softmax, and the label is
`cyberbully` iff the positive-class probability exceeds the fixed threshold
`1/2`. -/
theorem detect_confidence_and_label (e : ℚ → ℚ) (mdl : String → ℚ × ℚ)
    (st : ApiState) (cid text : String) (hexp : ∀ x, 0 < e x) :
    (0 ≤ (detect e mdl st cid text).2.confidence
      ∧ (detect e mdl st cid text).2.confidence ≤ 1)
    ∧ (detect e mdl st cid text).2.confidence
        = max (softmax2 e (mdl text).1 (mdl text).2).1
            (softmax2 e (mdl text).1 (mdl text).2).2
    ∧ ((detect e mdl st cid text).2.label = "cyberbully"
        ↔ 1/2 < (softmax2 e (mdl text).1 (mdl text).2).2) := by
  have ha : 0 < e (mdl text).1 := hexp _
  have hb : 0 < e (mdl text).2 := hexp _
  have hs : 0 < e (mdl text).1 + e (mdl text).2 := add_pos ha hb
  have hp0 : 0 ≤ (softmax2 e (mdl text).1 (mdl text).2).1 :=
    le_of_lt (div_pos ha hs)
  have hp1 : 0 ≤ (softmax2 e (mdl text).1 (mdl text).2).2 :=
    le_of_lt (div_pos hb hs)
  have hp0le : (softmax2 e (mdl text).1 (mdl text).2).1 ≤ 1 :=
    (div_le_one hs).mpr (le_add_of_nonneg_right (le_of_lt hb))
  have hp1le : (softmax2 e (mdl text).1 (mdl text).2).2 ≤ 1 :=
    (div_le_one hs).mpr (le_add_of_nonneg_left (le_of_lt ha))
  refine ⟨⟨le_max_of_le_left hp0, max_le hp0le hp1le⟩, rfl, ?_⟩
  rw [detect_label_eq]
  by_cases hthr : 1/2 < (softmax2 e (mdl text).1 (mdl text).2).2
  · rw [if_pos hthr]
    exact iff_of_true rfl hthr
  · rw [if_neg hthr]
    exact iff_of_false (by decide) hthr

/-- Witness for C8 at a concrete model: constant exponential, zero logits, so
both class probabilities are `1/2`, the confidence is `1/2` and the label is
not `cyberbully`. -/
theorem detect_confidence_and_label_witness :
    0 ≤ (detect (fun _ => 1) (fun _ => (0, 0)) ⟨[], []⟩ "c" "t").2.confidence
    ∧ ¬ ((detect (fun _ => 1) (fun _ => (0, 0)) ⟨[], []⟩ "c" "t").2.label
          = "cyberbully") := by
  have h := detect_confidence_and_label (fun _ => 1) (fun _ => (0, 0)) ⟨[], []⟩
    "c" "t" (fun _ => one_pos)
  exact ⟨h.1.1, fun hl => absurd (h.2.2.mp hl) (by norm_num [softmax2])⟩

/-- C1 counterexample: the claim fails on the code.  Two consecutive start
operations (the spawn step of GET `/retrain/stream`, which is where the code
launches the job) leave TWO live child training processes, and the explicit
trigger endpoint (POST `/retrain`), called while a job is live, still answers
`"Retraining started"` — there is no `already running` signal anywhere. -/
theorem retrain_start_counterexample :
    liveCount (stream_spawn (stream_spawn initOrch)) = 2
    ∧ (retrain_trigger (stream_spawn initOrch)).2 = "Retraining started"
    ∧ (retrain_trigger (stream_spawn initOrch)).1 = stream_spawn initOrch := by
  exact ⟨rfl, rfl, rfl⟩

/-- C1 amended: the code enforces no single-job invariant at all.  The start
trigger is a pure acknowledgment that never spawns and never checks for a
running job; the stream endpoint's launch step unconditionally spawns a fresh
child (raising the live count by one every time) and overwrites the
process-wide singleton handle with the newest pid; `k` stream calls with no
intervening exits leave `k` live children. -/
theorem start_spawns_unconditionally (s : OrchState) :
    (retrain_trigger s).1 = s
    ∧ (retrain_trigger s).2 = "Retraining started"
    ∧ liveCount (stream_spawn s) = liveCount s + 1
    ∧ (stream_spawn s).currentProc = some s.nextPid
    ∧ ∀ k : Nat, liveCount (stream_spawn^[k] initOrch) = k := by
  refine ⟨rfl, rfl, liveCount_stream_spawn s, rfl, ?_⟩
  intro k
  induction k with
  | zero => rfl
  | succ n ih =>
      rw [Function.iterate_succ_apply', liveCount_stream_spawn, ih]

/-- C2 counterexample: the claim fails on the code.  A job that completes
normally (exit status 0) yields a fully-consumed stream with TWO
complete-typed terminal events — the child's own final `complete` line plus
the orchestrator's unconditionally appended `{"type":"complete"}` — and a job
that dies instantly with exit status 1 and no output yields a stream whose
single event has type `complete`, not `failed`. -/
theorem stream_terminal_counterexample :
    terminalCount (streamEvents normalRunLines 0) = 2
    ∧ (streamEvents ([] : List SLine) 1).map SEvent.ty = ["complete"] := by
  exact ⟨by decide, rfl⟩

/-- C5: recording a moderation decision for a `comment_id` not currently in
the review queue fails with 404 and changes neither the queue nor the durable
log; recording one for a queued `comment_id` acknowledges, removes exactly
that one queue entry (the entry count drops by one and, under the dict
key-uniqueness invariant, precisely the entries of the other keys remain, in
order) and appends exactly one `ModerationDecision` record to the log. -/
theorem handle_action_queue_log (st : ApiState) (cid act : String) (now : Nat) :
    ((popQ st.pending_queue cid).1 = none →
        handle_action st cid act now = (.error 404, st))
    ∧ (∀ entry : QEntry, (popQ st.pending_queue cid).1 = some entry →
        (handle_action st cid act now).1 = .ok "Action recorded"
        ∧ (cid, entry) ∈ st.pending_queue
        ∧ (handle_action st cid act now).2.log
            = st.log ++ [⟨cid, entry.text, act, now⟩]
        ∧ (handle_action st cid act now).2.pending_queue.length + 1
            = st.pending_queue.length
        ∧ ((st.pending_queue.map Prod.fst).Nodup →
            (handle_action st cid act now).2.pending_queue
              = st.pending_queue.filter fun p => p.1 != cid)) := by
  constructor
  · intro hnone
    have hq := popQ_none_snd st.pending_queue cid hnone
    simp only [handle_action, hnone, hq]
  · intro entry hsome
    have hrw : handle_action st cid act now
        = (.ok "Action recorded",
            { pending_queue := (popQ st.pending_queue cid).2,
              log := save_moderator_action st.log cid entry.text act now }) := by
      simp only [handle_action, hsome]
    refine ⟨by rw [hrw], popQ_some_mem _ _ _ hsome, by rw [hrw]; rfl, ?_, ?_⟩
    · rw [hrw]
      exact popQ_some_length _ _ _ hsome
    · intro hnd
      rw [hrw]
      exact popQ_nodup_filter _ _ hnd

/-- Witness for C5: with one queued comment, acting on it empties the queue
and appends the one decision row; acting on a missing id returns 404 and
leaves the state untouched. -/
theorem handle_action_queue_log_witness :
    (handle_action ⟨[("c1", ⟨"hi", 1⟩)], []⟩ "c1" "approved" 5).1
        = .ok "Action recorded"
    ∧ (handle_action ⟨[("c1", ⟨"hi", 1⟩)], []⟩ "c1" "approved" 5).2.log
        = [⟨"c1", "hi", "approved", 5⟩]
    ∧ (handle_action ⟨[("c1", ⟨"hi", 1⟩)], []⟩ "c1" "approved" 5).2.pending_queue
        = []
    ∧ handle_action ⟨[("c1", ⟨"hi", 1⟩)], []⟩ "missing" "approved" 5
        = (.error 404, ⟨[("c1", ⟨"hi", 1⟩)], []⟩) := by
  have h := (handle_action_queue_log ⟨[("c1", ⟨"hi", 1⟩)], []⟩ "c1" "approved" 5).2
    ⟨"hi", 1⟩ (by decide)
  have h404 := (handle_action_queue_log ⟨[("c1", ⟨"hi", 1⟩)], []⟩ "missing"
    "approved" 5).1 (by decide)
  refine ⟨h.1, by simpa using h.2.2.1, ?_, h404⟩
  have hq := h.2.2.2.2 (by decide)
  rw [hq]
  decide

/-- C9: implicit queue invariant — every record present in the pending review
queue renders with label `cyberbully` and has stored confidence strictly
greater than `1/2` (an item is enqueued only when the positive-class
probability exceeds `1/2`, and the recorded maximum class probability is then
at least that probability); the invariant is preserved by every sequence of
queue operations (detect/enqueue, list, delete, action). -/
theorem review_queue_invariant (ops : List Op) (st : ApiState)
    (h : queueInv st) :
    queueInv (ops.foldl applyOp st)
    ∧ ∀ row ∈ get_queue (ops.foldl applyOp st),
        row.label = "cyberbully" ∧ 1/2 < row.confidence := by
  have hinv : queueInv (ops.foldl applyOp st) := by
    induction ops generalizing st with
    | nil => exact h
    | cons op rest ih => exact ih (applyOp st op) (applyOp_queueInv st op h)
  refine ⟨hinv, ?_⟩
  intro row hrow
  unfold get_queue at hrow
  rw [List.mem_map] at hrow
  obtain ⟨p, hp, hrow⟩ := hrow
  exact hrow ▸ ⟨rfl, hinv p hp⟩

/-- Witness for C9: starting from the empty state (which satisfies the
invariant), a detect that actually enqueues — logits pushing the positive
class to probability `e 1 / (e 0 + e 1) = 3/4` — followed by a queue listing,
keeps the invariant. -/
theorem review_queue_invariant_witness :
    queueInv
      ([Op.opDetect (fun x => if x = 1 then 3 else 1) (fun _ => (0, 1)) "c1" "x",
          Op.opList].foldl applyOp ⟨[], []⟩) := by
  exact (review_queue_invariant
    [Op.opDetect (fun x => if x = 1 then 3 else 1) (fun _ => (0, 1)) "c1" "x",
        Op.opList] ⟨[], []⟩
    (fun p hp => absurd hp (List.not_mem_nil p))).1

/-- C10: the moderation action endpoint does not validate the action string;
for every string `act`, provided the `comment_id` is queued, the call succeeds
and appends a log record whose action field is `act` verbatim, and when `act`
is outside `{approved, rejected}` that record is silently excluded by the
Dataset Builder's action filter. -/
theorem action_string_not_validated (st : ApiState) (cid act : String)
    (now : Nat) (entry : QEntry)
    (hpop : (popQ st.pending_queue cid).1 = some entry) :
    (handle_action st cid act now).1 = .ok "Action recorded"
    ∧ (handle_action st cid act now).2.log
        = st.log ++ [⟨cid, entry.text, act, now⟩]
    ∧ (act ≠ "approved" → act ≠ "rejected" →
        (⟨cid, entry.text, act, now⟩ : MRecord)
          ∉ latestDecisions ((handle_action st cid act now).2.log)) := by
  have hrw : handle_action st cid act now
      = (.ok "Action recorded",
          { pending_queue := (popQ st.pending_queue cid).2,
            log := save_moderator_action st.log cid entry.text act now }) := by
    simp only [handle_action, hpop]
  refine ⟨by rw [hrw], by rw [hrw]; rfl, ?_⟩
  intro h1 h2 hmem
  have hdec : isDecision ⟨cid, entry.text, act, now⟩ :=
    List.of_mem_filter (mem_latestDecisions _ _ hmem).1
  simp only [isDecision, Bool.or_eq_true, beq_iff_eq] at hdec
  rcases hdec with hdec | hdec
  · exact h1 hdec
  · exact h2 hdec

/-- Witness for C10: with `"c1"` queued, the unvalidated action `"banana"` is
recorded verbatim in the log and the resulting record is not selected by the
Dataset Builder. -/
theorem action_string_not_validated_witness :
    (handle_action ⟨[("c1", ⟨"hi", 1⟩)], []⟩ "c1" "banana" 7).1
        = .ok "Action recorded"
    ∧ (handle_action ⟨[("c1", ⟨"hi", 1⟩)], []⟩ "c1" "banana" 7).2.log
        = [⟨"c1", "hi", "banana", 7⟩]
    ∧ (⟨"c1", "hi", "banana", 7⟩ : MRecord)
        ∉ latestDecisions [⟨"c1", "hi", "banana", 7⟩] := by
  have h := action_string_not_validated ⟨[("c1", ⟨"hi", 1⟩)], []⟩ "c1" "banana" 7
    ⟨"hi", 1⟩ (by decide)
  have h3 := h.2.2 (by decide) (by decide)
  rw [h.2.1] at h3
  exact ⟨h.1, by simpa using h.2.1, h3⟩

/-- C3: `model_saved` events are emitted, and the checkpoint slot is
overwritten, if and only if the epoch's validation F1 strictly exceeds the
best metric recorded so far in the current job (the source initialises the
running best to `0.0`, so the best recorded before epoch `e` is the maximum
of `0` and the F1 values of the earlier epochs): over the whole run, the
epochs at which `torch.save` overwrites the checkpoint are exactly the
strict-improvement epochs — one write and one `model_saved` event each, in
order — and the `model_saved` events carry exactly those epochs' F1 values;
ties and decreases trigger nothing. -/
theorem model_saved_iff_improvement (cfg : RetrainCfg) :
    (retrain_main cfg).1.checkpointWrites = improvedEpochs cfg
    ∧ savedF1s (retrain_main cfg).2 = (improvedEpochs cfg).map cfg.f1
    ∧ (retrain_main cfg).1.bestF1
        = List.foldl max 0 ((List.range' 1 EPOCHS).map cfg.f1) := by
  have h := retrainLoop_spec cfg EPOCHS
  refine ⟨h.2.2.2.1, ?_, h.2.2.1⟩
  show savedF1s
      ([REvent.summary EPOCHS BATCH_SIZE (EPOCHS * cfg.nBatches) cfg.device,
          REvent.trainingStarted]
        ++ (runEpochs cfg (EPOCHS * cfg.nBatches) (List.range' 1 EPOCHS)
              initTrain).2
        ++ [REvent.complete (runEpochs cfg (EPOCHS * cfg.nBatches)
              (List.range' 1 EPOCHS) initTrain).1.bestF1]) = _
  rw [savedF1s_append, savedF1s_append,
    show savedF1s [REvent.summary EPOCHS BATCH_SIZE (EPOCHS * cfg.nBatches)
        cfg.device, REvent.trainingStarted] = [] from rfl,
    show savedF1s [REvent.complete (runEpochs cfg (EPOCHS * cfg.nBatches)
        (List.range' 1 EPOCHS) initTrain).1.bestF1] = [] from rfl,
    List.nil_append, List.append_nil]
  exact h.2.2.2.2.2

/-- C4: for every training job, the percentages carried by the emitted
`progress` events form a strictly increasing sequence, every value lies in
`[0, 100]`, and a progress event is emitted exactly at the steps at which the
cumulative completed-batch percentage (as an integer) increases past the last
emitted value (the percentage sequence over steps is monotone, so the last
emitted value before step `t` is the percentage of step `t - 1`, with the
sentinel `-1` before the first step). -/
theorem progress_strictly_increasing (cfg : RetrainCfg) :
    (progressValues (retrain_main cfg).2).Pairwise (fun a b => a < b)
    ∧ (∀ p ∈ progressValues (retrain_main cfg).2, 0 ≤ p ∧ p ≤ 100)
    ∧ progressValues (retrain_main cfg).2
        = ((List.range' 1 (EPOCHS * cfg.nBatches)).filter
            (fun t => specProg (EPOCHS * cfg.nBatches) (t - 1)
                < specProg (EPOCHS * cfg.nBatches) t)).map
            (progOf (EPOCHS * cfg.nBatches)) := by
  have h := (retrainLoop_spec cfg EPOCHS).2.2.2.2.1
  have hpv : progressValues (retrain_main cfg).2
      = progressValues (runEpochs cfg (EPOCHS * cfg.nBatches)
          (List.range' 1 EPOCHS) initTrain).2 := by
    show progressValues
        ([REvent.summary EPOCHS BATCH_SIZE (EPOCHS * cfg.nBatches) cfg.device,
            REvent.trainingStarted]
          ++ (runEpochs cfg (EPOCHS * cfg.nBatches) (List.range' 1 EPOCHS)
                initTrain).2
          ++ [REvent.complete (runEpochs cfg (EPOCHS * cfg.nBatches)
                (List.range' 1 EPOCHS) initTrain).1.bestF1]) = _
    rw [progressValues_append, progressValues_append,
      show progressValues [REvent.summary EPOCHS BATCH_SIZE
          (EPOCHS * cfg.nBatches) cfg.device, REvent.trainingStarted] = []
        from rfl,
      show progressValues [REvent.complete (runEpochs cfg
          (EPOCHS * cfg.nBatches) (List.range' 1 EPOCHS) initTrain).1.bestF1]
          = [] from rfl,
      List.nil_append, List.append_nil]
  refine ⟨?_, ?_, by rw [hpv, h]⟩
  · rw [hpv, h, List.pairwise_map]
    have hpw : (List.range' 1 (EPOCHS * cfg.nBatches)).Pairwise (· < ·) :=
      List.pairwise_lt_range' 1 (EPOCHS * cfg.nBatches)
    have hpwf := hpw.filter
      (fun t => decide (specProg (EPOCHS * cfg.nBatches) (t - 1)
          < specProg (EPOCHS * cfg.nBatches) t))
    refine hpwf.imp_of_mem ?_
    intro a b ha hb hab
    have hbp0 := (List.mem_filter.mp hb).2
    have hbp : specProg (EPOCHS * cfg.nBatches) (b - 1)
        < specProg (EPOCHS * cfg.nBatches) b :=
      of_decide_eq_true hbp0
    have har : a ∈ List.range' 1 (EPOCHS * cfg.nBatches) :=
      List.mem_of_mem_filter ha
    have hbr : b ∈ List.range' 1 (EPOCHS * cfg.nBatches) :=
      List.mem_of_mem_filter hb
    have ha1 : 1 ≤ a := (List.mem_range'_1.mp har).1
    have hb1 : 1 ≤ b := (List.mem_range'_1.mp hbr).1
    have hsa : specProg (EPOCHS * cfg.nBatches) a
        = progOf (EPOCHS * cfg.nBatches) a := by
      unfold specProg
      rw [if_neg (by omega)]
    have hsb : specProg (EPOCHS * cfg.nBatches) b
        = progOf (EPOCHS * cfg.nBatches) b := by
      unfold specProg
      rw [if_neg (by omega)]
    have hmono : specProg (EPOCHS * cfg.nBatches) a
        ≤ specProg (EPOCHS * cfg.nBatches) (b - 1) :=
      specProg_mono (EPOCHS * cfg.nBatches) (by omega)
    rw [← hsa, ← hsb]
    exact lt_of_le_of_lt hmono hbp
  · rw [hpv, h]
    intro p hp
    rw [List.mem_map] at hp
    obtain ⟨t, ht, rfl⟩ := hp
    have htr : t ∈ List.range' 1 (EPOCHS * cfg.nBatches) :=
      List.mem_of_mem_filter ht
    have hb := List.mem_range'_1.mp htr
    have hTpos : 0 < EPOCHS * cfg.nBatches := by omega
    have htle : t ≤ EPOCHS * cfg.nBatches := by omega
    constructor
    · exact Int.natCast_nonneg _
    · have hnat : (t * 100) / (EPOCHS * cfg.nBatches) ≤ 100 := by
        calc (t * 100) / (EPOCHS * cfg.nBatches)
            ≤ ((EPOCHS * cfg.nBatches) * 100) / (EPOCHS * cfg.nBatches) :=
              Nat.div_le_div_right (Nat.mul_le_mul htle (le_refl 100))
          _ = 100 := Nat.mul_div_cancel_left 100 hTpos
      show progOf (EPOCHS * cfg.nBatches) t ≤ 100
      unfold progOf
      exact_mod_cast hnat

/-- C6: the Dataset Builder keeps only the most recent approved/rejected
decision per `comment_id` (each selected row is an approved/rejected row of
the log of maximal timestamp within its id, ids appear at most once, and a
decision strictly older than another decision of the same id never survives
into the merge input); and with zero approved/rejected decisions it writes no
output file and signals "no data" (`none`) while remaining total (no hard
error). -/
theorem dataset_builder_latest_wins (log : List MRecord) (orig : List Row)
    (shuffle : List Row → List Row) :
    ((log.filter isDecision) = [] →
        prepare_training_data shuffle log orig = none)
    ∧ (∀ r ∈ latestDecisions log,
        r ∈ log.filter isDecision
          ∧ ∀ r2 ∈ log.filter isDecision,
              r2.comment_id = r.comment_id → r2.timestamp ≤ r.timestamp)
    ∧ ((latestDecisions log).map MRecord.comment_id).Nodup
    ∧ (∀ r1 ∈ log, ∀ r2 ∈ log, isDecision r1 → isDecision r2 →
        r1.comment_id = r2.comment_id → r1.timestamp < r2.timestamp →
        r1 ∉ latestDecisions log) := by
  refine ⟨?_, fun r hr => mem_latestDecisions log r hr,
    latestDecisions_ids_nodup log, ?_⟩
  · intro hempty
    have hld : latestDecisions log = [] := by
      unfold latestDecisions
      rw [hempty]
      rfl
    simp [prepare_training_data, hld]
  · intro r1 h1 r2 h2 hd1 hd2 hid ht hmem
    have hmax := (mem_latestDecisions log r1 hmem).2 r2
      (List.mem_filter.mpr ⟨h2, hd2⟩) hid.symm
    exact absurd hmax (not_le.mpr ht)

/-- Witness for C6: of two decisions for `"c1"` with timestamps `1 < 2`, the
older one does not survive into the merge input; and an empty feedback store
produces no output. -/
theorem dataset_builder_latest_wins_witness :
    (⟨"c1", "bad", "approved", 1⟩ : MRecord)
        ∉ latestDecisions
            [⟨"c1", "bad", "approved", 1⟩, ⟨"c1", "worse", "rejected", 2⟩]
    ∧ prepare_training_data (fun l => l) [] [] = none := by
  constructor
  · exact (dataset_builder_latest_wins
      [⟨"c1", "bad", "approved", 1⟩, ⟨"c1", "worse", "rejected", 2⟩] []
      (fun l => l)).2.2.2
      ⟨"c1", "bad", "approved", 1⟩ (by decide)
      ⟨"c1", "worse", "rejected", 2⟩ (by decide)
      (by decide) (by decide) rfl (by decide)
  · exact (dataset_builder_latest_wins [] [] (fun l => l)).1 rfl

/-- C2 amended: for every run, the stream consumed to its end terminates with
exactly one orchestrator-appended final event, and that event always has type
`complete`, independent of the exit status the orchestrator just waited for
(`cancelled` and `failed` payloads are never produced); the appended event
comes on top of whatever the child printed, so the stream carries one more
terminal-typed event than the child's own output (two in a normal run), and
no line is dropped. -/
theorem stream_appends_one_complete (lines : List SLine) (c₁ c₂ : Int) :
    streamEvents lines c₁ = streamEvents lines c₂
    ∧ (streamEvents lines c₁).getLast? = some .finalComplete
    ∧ terminalCount (streamEvents lines c₁)
        = terminalCount (lines.map lineToEvent) + 1
    ∧ (streamEvents lines c₁).length = lines.length + 1 := by
  refine ⟨rfl, List.getLast?_concat _, ?_, by simp [streamEvents]⟩
  unfold terminalCount streamEvents
  rw [List.filter_append]
  simp [isTerminal, SEvent.ty]

end Cyberbully
